import Mathlib

/-!
# Verification of the solar-data cleaning pipeline

A shallow embedding of the cleaning pipeline of `notebooks/togo_eda.ipynb`
(cells `7ad52592`, `bf5f2149`, `35dd3e22`, `07f72b2d`) and proofs of the
specification's claims about it.

Modelling choices:
* A table cell is `Option ℚ`; `none` models a missing value (`NaN`).
  Numeric values are modelled as exact rationals.
* A dataset is a column-name list plus rows of cells, cell `i` of a row
  belonging to column `i`.  A well-formed (rectangular) dataset has every
  row of the same length as the column list, as a pandas `DataFrame` does.
* `scipy.stats.zscore(..., nan_policy='omit')` standardises with the
  population mean and standard deviation `σ = √v` of the non-missing
  values; the notebook only uses z-scores through the test `|z| > 3`,
  which is encoded square-root-free as `(x - μ)² > 3² * v`.  A missing
  value has `NaN` z-score, so its outlier flag is `False`; a zero-variance
  column yields `NaN` z-scores, so its flags are all `False` as well.
* Cell `bf5f2149` stores its derived attributes as real columns named
  `col + '_zscore'` and `col + '_outlier'`, overwriting an input column
  that already carries such a name, and cell `35dd3e22` finally deletes
  every column whose name ends in `'_zscore'` or `'_outlier'` — the fresh
  auxiliary columns and any suffix-named input column alike.  Because every
  column the assignments can touch is suffix-named, and every suffix-named
  column is deleted by that final drop, the only output-visible effect of
  the auxiliary columns is the drop itself.  The model therefore carries
  the flag values out of band next to each row (z-score cell values are
  irrational and are never observable: they only reach the output of the
  pass through the `|z| > 3` flags) and models the final
  `df.drop(columns=[c for c in df.columns if c.endswith('_zscore') or
  c.endswith('_outlier')])` faithfully as a suffix-based projection of the
  column list and of every surviving row (`isAuxCol`, `keepCells`).
* `pandas.DataFrame.dropna(subset=key_cols)` raises a `KeyError` when a
  subset label is absent from the frame; the pipeline is therefore
  modelled in `Except`, and that is its only error exit.
-/

/-- Decidable equality for `Except`, used to evaluate the pipeline on
concrete inputs. -/
instance {ε α : Type} [DecidableEq ε] [DecidableEq α] :
    DecidableEq (Except ε α) := fun a b =>
  match a, b with
  | .ok x, .ok y =>
    if h : x = y then .isTrue (by rw [h]) else
      .isFalse (fun hh => h (Except.ok.inj hh))
  | .error e, .error f =>
    if h : e = f then .isTrue (by rw [h]) else
      .isFalse (fun hh => h (Except.error.inj hh))
  | .ok _, .error _ => .isFalse (fun hh => by cases hh)
  | .error _, .ok _ => .isFalse (fun hh => by cases hh)

namespace Solar

/-- A cell: `none` is a missing value (`NaN`). -/
abbrev Value := Option ℚ

/-- A row of cells, positionally aligned with the dataset's column list. -/
abbrev Row := List Value

/-- A dataset: named columns and rows of cells (cell `i` of a row belongs to
column `i` of `cols`). -/
structure Dataset where
  cols : List String
  rows : List Row
deriving DecidableEq, Repr

/-- Rectangular (well-formed) dataset: every row has one cell per column,
as every pandas `DataFrame` does. -/
def Dataset.WF (d : Dataset) : Prop := ∀ r ∈ d.rows, r.length = d.cols.length

instance (d : Dataset) : Decidable d.WF :=
  decidable_of_iff (∀ r ∈ d.rows, r.length = d.cols.length) Iff.rfl

/-- Read cell `i` of a row; reading past the end gives a missing value. -/
def cell : Row → Nat → Value
  | [], _ => none
  | v :: _, 0 => v
  | _ :: r, i + 1 => cell r i

/-- Position of a column name in a column list (first occurrence), `none` if
the column is absent. -/
def colIdx : List String → String → Option Nat
  | [], _ => none
  | c0 :: cs, c => if c0 = c then some 0 else (colIdx cs c).map (· + 1)

/-- `df[col]` as the list of cells of column `c`, row by row. -/
def colCells (d : Dataset) (c : String) : List Value :=
  match colIdx d.cols c with
  | none => []
  | some i => d.rows.map (fun r => cell r i)

/-- The non-missing values of column `c`, in row order: what
`nan_policy='omit'` and pandas' default `skipna` statistics see. -/
def presentVals (d : Dataset) (c : String) : List ℚ :=
  (colCells d c).filterMap id

/-- Arithmetic mean of a list; `0` on the empty list (where the library
would produce `NaN`; every use below guards against that case). -/
def listMean (xs : List ℚ) : ℚ := xs.sum / xs.length

/-- Population variance (`ddof = 0`, as `scipy.stats.zscore` uses). -/
def listVar (xs : List ℚ) : ℚ :=
  ((xs.map (fun x => (x - listMean xs) ^ 2)).sum) / xs.length

/-- The value `pandas.Series.median()` computes on a non-empty list of
non-missing values: sort ascending and average the lower and upper middle
elements (they coincide for odd length). -/
def medianVal (xs : List ℚ) : ℚ :=
  let s := xs.insertionSort (· ≤ ·)
  (s.getD ((xs.length - 1) / 2) 0 + s.getD (xs.length / 2) 0) / 2

/-- `pandas.Series.median()`: `none` (`NaN`) when every value is missing. -/
def median (xs : List ℚ) : Option ℚ :=
  if xs.length = 0 then none else some (medianVal xs)

/-- Cell `bf5f2149`: `df[col + '_outlier'] = df[col + '_zscore'].abs() > 3`
with `df[col + '_zscore'] = zscore(df[col].astype(float), nan_policy='omit')`,
for threshold `t`, column mean `μ` and population variance `v`.  The test
`|x - μ| / √v > t` is encoded square-root-free as `(x - μ)² > t² * v` (the
two agree for every `t ≥ 0`); a missing value or a zero-variance column
gives a `NaN` z-score, whose comparison with `t` is `False`. -/
def outlierFlag (t μ v : ℚ) : Value → Bool
  | none => false
  | some x => decide (v ≠ 0) && decide ((x - μ) ^ 2 > t ^ 2 * v)

/-- The key columns present in the dataset, in key-column order: exactly
those for which the `if col in df.columns` guards fire and the auxiliary
`_zscore`/`_outlier` attributes exist. -/
def presentKeyCols (d : Dataset) (keyCols : List String) : List String :=
  keyCols.filter (fun c => decide (c ∈ d.cols))

/-- The outlier flag of row `r` for key column `c`, computed from the
pre-imputation statistics of `d` (cell `bf5f2149` runs before any cleaning). -/
def flagOf (d : Dataset) (t : ℚ) (c : String) (r : Row) : Bool :=
  outlierFlag t (listMean (presentVals d c)) (listVar (presentVals d c))
    (match colIdx d.cols c with
     | none => none
     | some i => cell r i)

/-- Cell `bf5f2149`: pair every row with its outlier flags, one per present
key column, in key-column order. -/
def flagRows (d : Dataset) (keyCols : List String) (t : ℚ) :
    List (Row × List Bool) :=
  d.rows.map (fun r => (r, (presentKeyCols d keyCols).map (fun c => flagOf d t c r)))

/-- `fillna`: a missing cell takes the fill value, others are unchanged. -/
def fillCell (m : ℚ) : Value → Value
  | none => some m
  | some x => some x

/-- Fill a missing cell at position `i` of a row (no effect past the end). -/
def fillRow (m : ℚ) (i : Nat) (r : Row) : Row :=
  match r, i with
  | [], _ => []
  | v :: r, 0 => fillCell m v :: r
  | v :: r, i + 1 => v :: fillRow m i r

/-- One iteration of the imputation loop of cell `35dd3e22`:
`if col in df.columns: if df[col].isna().sum() > 0:
   df[col].fillna(df[col].median(), inplace=True)`.
The median is taken over the current rows, matching the in-place loop; a
`NaN` median (every cell missing) makes `fillna` a no-op. -/
def imputeCol (cols : List String) (c : String) (rows : List (Row × List Bool)) :
    List (Row × List Bool) :=
  match colIdx cols c with
  | none => rows
  | some i =>
    let cur := rows.map (fun p => cell p.1 i)
    if cur.any (fun v => v.isNone) then
      match median (cur.filterMap id) with
      | none => rows
      | some m => rows.map (fun p => (fillRow m i p.1, p.2))
    else rows

/-- The whole imputation loop of cell `35dd3e22`, column by column. -/
def imputeStep (cols : List String) (keyCols : List String)
    (rows : List (Row × List Bool)) : List (Row × List Bool) :=
  keyCols.foldl (fun acc c => imputeCol cols c acc) rows

/-- The positions of the key columns that are present. -/
def keyIdxs (d : Dataset) (keyCols : List String) : List Nat :=
  keyCols.filterMap (colIdx d.cols)

/-- `df.dropna(subset=key_cols)`: keep the rows with no missing value in
any key column. -/
def dropnaStep (is : List Nat) (rows : List (Row × List Bool)) :
    List (Row × List Bool) :=
  rows.filter (fun p => is.all (fun i => (cell p.1 i).isSome))

/-- The outlier-removal loop of cell `35dd3e22`: for each of the `k` flag
columns in turn, `df = df[~df[col + '_outlier']]` (flag `j` of a row belongs
to the `j`-th present key column). -/
def removeOutliers (k : Nat) (rows : List (Row × List Bool)) :
    List (Row × List Bool) :=
  (List.range k).foldl
    (fun acc j => acc.filter (fun p => !(p.2.getD j false))) rows

/-- The reserved auxiliary suffixes: cell `bf5f2149` writes its derived
columns as `col + '_zscore'` and `col + '_outlier'` (overwriting any input
column that already carries such a name), and the end of cell `35dd3e22`
deletes every column whose name ends in either suffix:
`df.drop(columns=[c for c in df.columns if c.endswith('_zscore') or
c.endswith('_outlier')])`. -/
def isAuxCol (c : String) : Bool := c.endsWith "_zscore" || c.endsWith "_outlier"

/-- The row projection performed by that final column drop: keep exactly
the cells of the columns whose names survive the suffix rule. -/
def keepCells (cols : List String) (r : Row) : Row :=
  match r, cols with
  | [], _ => []
  | _ :: _, [] => []
  | v :: r, c :: cs => if isAuxCol c then keepCells cs r else v :: keepCells cs r

/-- Number of missing cells of column `i` (a term of `df.isna().sum()`). -/
def missingCount (d : Dataset) (i : Nat) : Nat :=
  (d.rows.map (fun r => cell r i)).countP (fun v => v.isNone)

/-- Cell `7ad52592`'s `missing_report`: per column of the raw frame, the
missing count and percentage, restricted to columns with at least one
missing value. -/
def missingReport (d : Dataset) : List (String × Nat × ℚ) :=
  ((List.range d.cols.length).map (fun i =>
    (d.cols.getD i "", missingCount d i,
      100 * (missingCount d i : ℚ) / d.rows.length))).filter
    (fun p => decide (0 < p.2.1))

/-- Cell `bf5f2149`'s `outlier_counts`: per present key column, the number
of outlier-flagged rows, counted before any row is dropped. -/
def outlierCounts (d : Dataset) (keyCols : List String) (t : ℚ) :
    List (String × Nat) :=
  (presentKeyCols d keyCols).map (fun c =>
    (c, d.rows.countP (fun r => flagOf d t c r)))

/-- The diagnostic report of cells `7ad52592` and `bf5f2149`: pre-cleaning
per-column missing counts/percentages and per-column outlier counts. -/
structure Report where
  missing : List (String × Nat × ℚ)
  outliers : List (String × Nat)
deriving DecidableEq, Repr

/-- Assemble the report from the raw (pre-cleaning) dataset. -/
def report (d : Dataset) (keyCols : List String) (t : ℚ) : Report :=
  ⟨missingReport d, outlierCounts d keyCols t⟩

/-- The cleaning pipeline of cells `7ad52592`, `bf5f2149` and `35dd3e22`:
flag outliers on the raw data, impute medians column by column, drop the
rows still missing a key-column value, drop the flagged rows column by
column, then delete every column whose name ends in `'_zscore'` or
`'_outlier'` — the fresh auxiliary columns and any suffix-named input
column (cell `bf5f2149`'s assignments overwrote colliding input columns,
but those are themselves suffix-named, so only the deletion is visible in
the output) — and return the result with the diagnostic report.
`df.dropna(subset=key_cols)` raises a `KeyError` when a key column is
absent from the frame — the only error exit; and
`df.reset_index(drop=True)` does not change the positional row list. -/
def clean (d : Dataset) (keyCols : List String) (t : ℚ) :
    Except String (Dataset × Report) :=
  let flagged := flagRows d keyCols t
  let imputed := imputeStep d.cols keyCols flagged
  if keyCols.all (fun c => decide (c ∈ d.cols)) then
    let kept := dropnaStep (keyIdxs d keyCols) imputed
    let final := removeOutliers (presentKeyCols d keyCols).length kept
    .ok (⟨d.cols.filter (fun c => !(isAuxCol c)),
          final.map (fun p => keepCells d.cols p.1)⟩, report d keyCols t)
  else .error "KeyError"

/-- The fill each key column contributes: its position and the pre-clean
median of its non-missing values, when both are defined. -/
def fillsOf (d : Dataset) (keyCols : List String) : List (Nat × ℚ) :=
  keyCols.filterMap (fun c =>
    match colIdx d.cols c with
    | none => none
    | some i => (median (presentVals d c)).map (fun m => (i, m)))

/-- Simultaneous imputation of one row, as step 2 of spec §4.1 words it:
every missing cell of a present target column takes that column's pre-clean
median. -/
def imputeRowAll (d : Dataset) (keyCols : List String) (r : Row) : Row :=
  (fillsOf d keyCols).foldl (fun acc p => fillRow p.2 p.1 acc) r

/-- The pipeline in the exact step order of spec §4.1: (1) flag outliers
per target column against the pre-imputation statistics, (2) impute the
pre-clean medians, (3) drop any row still missing a value in any target
column, (4) drop any row flagged as an outlier in any target column, then
discard the auxiliary attributes the way the code does — by deleting every
column with a reserved suffix — and return the table plus the report. -/
def cleanSpecOrder (d : Dataset) (keyCols : List String) (t : ℚ) :
    Except String (Dataset × Report) :=
  if keyCols.all (fun c => decide (c ∈ d.cols)) then
    let imputed := (flagRows d keyCols t).map
      (fun p => (imputeRowAll d keyCols p.1, p.2))
    let kept := imputed.filter
      (fun p => (keyIdxs d keyCols).all (fun i => (cell p.1 i).isSome))
    let final := kept.filter (fun p => !(p.2.any id))
    .ok (⟨d.cols.filter (fun c => !(isAuxCol c)),
          final.map (fun p => keepCells d.cols p.1)⟩, report d keyCols t)
  else .error "KeyError"

/-! ## Basic facts about cells, row filling and column lookup -/

theorem cell_eq_none_of_le : ∀ (r : Row) (i : Nat), r.length ≤ i → cell r i = none
  | [], _, _ => rfl
  | _ :: _, 0, h => absurd h (by simp)
  | _ :: r, i + 1, h => cell_eq_none_of_le r i (by simpa using h)

theorem lt_length_of_cell_eq_some : ∀ {r : Row} {i : Nat} {x : ℚ},
    cell r i = some x → i < r.length := by
  intro r i x h
  by_contra hlt
  rw [cell_eq_none_of_le r i (by omega)] at h
  exact Option.noConfusion h

theorem length_fillRow (m : ℚ) : ∀ (i : Nat) (r : Row),
    (fillRow m i r).length = r.length := by
  intro i r
  induction r generalizing i with
  | nil => cases i <;> rfl
  | cons v r ih =>
    cases i with
    | zero => rfl
    | succ i => simp [fillRow, ih i]

theorem cell_fillRow_self (m : ℚ) : ∀ (i : Nat) (r : Row),
    cell (fillRow m i r) i = if i < r.length then fillCell m (cell r i) else none := by
  intro i r
  induction r generalizing i with
  | nil => simp [fillRow, cell]
  | cons v r ih =>
    cases i with
    | zero => simp [fillRow, cell]
    | succ i =>
      simp only [fillRow, cell, ih i, List.length_cons]
      by_cases h : i < r.length
      · simp [h, Nat.succ_lt_succ h]
      · simp [h, fun hh => h (Nat.lt_of_succ_lt_succ hh)]

theorem cell_fillRow_ne (m : ℚ) : ∀ (i j : Nat) (r : Row), j ≠ i →
    cell (fillRow m i r) j = cell r j := by
  intro i j r
  induction r generalizing i j with
  | nil => intro _; cases i <;> rfl
  | cons v r ih =>
    intro h
    cases i with
    | zero => cases j with
      | zero => exact absurd rfl h
      | succ j => rfl
    | succ i => cases j with
      | zero => rfl
      | succ j => exact ih i j (by omega)

theorem fillRow_eq_self_of_some (m : ℚ) : ∀ (i : Nat) (r : Row) {x : ℚ},
    cell r i = some x → fillRow m i r = r := by
  intro i r
  induction r generalizing i with
  | nil => intro x h; cases i <;> rfl
  | cons v r ih =>
    intro x h
    cases i with
    | zero =>
      simp only [cell] at h
      simp [fillRow, h, fillCell]
    | succ i =>
      simp only [cell] at h
      simp [fillRow, ih i h]

theorem fillRow_eq_self_of_le (m : ℚ) : ∀ (i : Nat) (r : Row),
    r.length ≤ i → fillRow m i r = r := by
  intro i r
  induction r generalizing i with
  | nil => intro _; cases i <;> rfl
  | cons v r ih =>
    intro h
    cases i with
    | zero => exact absurd h (by simp)
    | succ i => simp [fillRow, ih i (by simpa using h)]

theorem colIdx_eq_none_iff : ∀ (cs : List String) (c : String),
    colIdx cs c = none ↔ c ∉ cs := by
  intro cs c
  induction cs with
  | nil => simp [colIdx]
  | cons c0 cs ih =>
    simp only [colIdx]
    by_cases h : c0 = c
    · simp [h]
    · simp [h, Option.map_eq_none', ih, Ne.symm h]

theorem colIdx_isSome_iff (cs : List String) (c : String) :
    (colIdx cs c).isSome ↔ c ∈ cs := by
  rw [← Option.ne_none_iff_isSome, ne_eq, colIdx_eq_none_iff, not_not]

theorem colIdx_lt : ∀ {cs : List String} {c : String} {i : Nat},
    colIdx cs c = some i → i < cs.length := by
  intro cs
  induction cs with
  | nil => intro c i h; exact Option.noConfusion h
  | cons c0 cs ih =>
    intro c i h
    simp only [colIdx] at h
    by_cases h0 : c0 = c
    · simp [h0] at h; simp only [List.length_cons]; omega
    · simp only [h0, if_false, Option.map_eq_some'] at h
      obtain ⟨j, hj, rfl⟩ := h
      have := ih hj
      simp only [List.length_cons]; omega

theorem colIdx_getD : ∀ {cs : List String} {c : String} {i : Nat},
    colIdx cs c = some i → cs.getD i "" = c := by
  intro cs
  induction cs with
  | nil => intro c i h; exact Option.noConfusion h
  | cons c0 cs ih =>
    intro c i h
    simp only [colIdx] at h
    by_cases h0 : c0 = c
    · simp [h0] at h; subst h; simpa using h0
    · simp only [h0, if_false, Option.map_eq_some'] at h
      obtain ⟨j, hj, rfl⟩ := h
      simpa using ih hj

/-- Two key columns with the same position are the same column. -/
theorem colIdx_name_unique {cs : List String} {c c' : String} {i : Nat}
    (h : colIdx cs c = some i) (h' : colIdx cs c' = some i) : c = c' := by
  rw [← colIdx_getD h, colIdx_getD h']

/-! ## The final suffix-based column drop -/

theorem length_keepCells_le : ∀ (cols : List String) (r : Row),
    (keepCells cols r).length ≤ (cols.filter (fun c => !(isAuxCol c))).length := by
  intro cols r
  induction r generalizing cols with
  | nil => cases cols <;> simp [keepCells]
  | cons v r ih =>
    cases cols with
    | nil => simp [keepCells]
    | cons c cs =>
      by_cases haux : isAuxCol c = true
      · have hstep : keepCells (c :: cs) (v :: r) = keepCells cs r := by
          simp [keepCells, haux]
        have hfil : (c :: cs).filter (fun x => !(isAuxCol x)) =
            cs.filter (fun x => !(isAuxCol x)) := by simp [haux]
        rw [hstep, hfil]
        exact ih cs
      · have haux' : isAuxCol c = false := by simpa using haux
        have hstep : keepCells (c :: cs) (v :: r) = v :: keepCells cs r := by
          simp [keepCells, haux']
        have hfil : (c :: cs).filter (fun x => !(isAuxCol x)) =
            c :: cs.filter (fun x => !(isAuxCol x)) := by simp [haux']
        rw [hstep, hfil, List.length_cons, List.length_cons]
        exact Nat.succ_le_succ (ih cs)

theorem length_keepCells_of_eq : ∀ (cols : List String) (r : Row),
    r.length = cols.length →
    (keepCells cols r).length = (cols.filter (fun c => !(isAuxCol c))).length := by
  intro cols r
  induction r generalizing cols with
  | nil =>
    intro h
    obtain rfl : cols = [] := List.length_eq_zero.mp h.symm
    simp [keepCells]
  | cons v r ih =>
    intro h
    cases cols with
    | nil => simp at h
    | cons c cs =>
      have h2 : r.length = cs.length := by simpa using h
      by_cases haux : isAuxCol c = true
      · have hstep : keepCells (c :: cs) (v :: r) = keepCells cs r := by
          simp [keepCells, haux]
        have hfil : (c :: cs).filter (fun x => !(isAuxCol x)) =
            cs.filter (fun x => !(isAuxCol x)) := by simp [haux]
        rw [hstep, hfil]
        exact ih cs h2
      · have haux' : isAuxCol c = false := by simpa using haux
        have hstep : keepCells (c :: cs) (v :: r) = v :: keepCells cs r := by
          simp [keepCells, haux']
        have hfil : (c :: cs).filter (fun x => !(isAuxCol x)) =
            c :: cs.filter (fun x => !(isAuxCol x)) := by simp [haux']
        rw [hstep, hfil, List.length_cons, List.length_cons]
        exact congrArg Nat.succ (ih cs h2)

/-- When no column carries a reserved suffix, the drop leaves a (no longer
than the header) row unchanged. -/
theorem keepCells_eq_self : ∀ (cols : List String) (r : Row),
    (∀ c ∈ cols, isAuxCol c = false) → r.length ≤ cols.length →
    keepCells cols r = r := by
  intro cols r
  induction r generalizing cols with
  | nil => intro _ _; cases cols <;> rfl
  | cons v r ih =>
    intro hfree hlen
    cases cols with
    | nil => simp at hlen
    | cons c cs =>
      have hc : isAuxCol c = false := hfree c (by simp)
      have hstep : keepCells (c :: cs) (v :: r) = v :: keepCells cs r := by
        simp [keepCells, hc]
      rw [hstep, ih cs (fun c2 hc2 => hfree c2 (by simp [hc2])) (by simpa using hlen)]

/-- A reserved-suffix name does not survive the drop. -/
theorem colIdx_keep_none_of_aux {cols : List String} {c : String}
    (hcaux : isAuxCol c = true) :
    colIdx (cols.filter (fun x => !(isAuxCol x))) c = none := by
  rw [colIdx_eq_none_iff]
  intro hmem
  have := (List.mem_filter.mp hmem).2
  rw [hcaux] at this
  cases this

/-- A data column (no reserved suffix) survives the drop. -/
theorem colIdx_keep_isSome {cols : List String} {c : String}
    (hcaux : isAuxCol c = false) (hmem : c ∈ cols) :
    ∃ j, colIdx (cols.filter (fun x => !(isAuxCol x))) c = some j := by
  have hm2 : c ∈ cols.filter (fun x => !(isAuxCol x)) :=
    List.mem_filter.mpr ⟨hmem, by simp [hcaux]⟩
  exact Option.isSome_iff_exists.mp ((colIdx_isSome_iff _ _).mpr hm2)

/-- The cell of a surviving data column is untouched by the drop: reading
it at its new position gives the value at its old position. -/
theorem cell_keepCells_some {cols : List String} {c : String} {i j : Nat}
    (hcaux : isAuxCol c = false) :
    colIdx cols c = some i →
    colIdx (cols.filter (fun x => !(isAuxCol x))) c = some j →
    ∀ r : Row, cell (keepCells cols r) j = cell r i := by
  induction cols generalizing i j with
  | nil => intro hi _ _; exact Option.noConfusion hi
  | cons c0 cs ih =>
    intro hi hj r
    by_cases haux0 : isAuxCol c0 = true
    · have hc0ne : c0 ≠ c := by
        intro he
        rw [he, hcaux] at haux0
        cases haux0
      rw [colIdx, if_neg hc0ne] at hi
      obtain ⟨i2, hi2, rfl⟩ := Option.map_eq_some'.mp hi
      have hfil : (c0 :: cs).filter (fun x => !(isAuxCol x)) =
          cs.filter (fun x => !(isAuxCol x)) := by simp [haux0]
      rw [hfil] at hj
      cases r with
      | nil => cases j <;> simp [keepCells, cell]
      | cons v r2 =>
        have hstep : keepCells (c0 :: cs) (v :: r2) = keepCells cs r2 := by
          simp [keepCells, haux0]
        rw [hstep]
        exact ih hi2 hj r2
    · have haux0' : isAuxCol c0 = false := by simpa using haux0
      have hfil : (c0 :: cs).filter (fun x => !(isAuxCol x)) =
          c0 :: cs.filter (fun x => !(isAuxCol x)) := by simp [haux0']
      rw [hfil] at hj
      by_cases hc0 : c0 = c
      · rw [colIdx, if_pos hc0] at hi hj
        obtain rfl : 0 = i := Option.some.inj hi
        obtain rfl : 0 = j := Option.some.inj hj
        cases r with
        | nil => simp [keepCells, cell]
        | cons v r2 =>
          have hstep : keepCells (c0 :: cs) (v :: r2) = v :: keepCells cs r2 := by
            simp [keepCells, haux0']
          rw [hstep]
          rfl
      · rw [colIdx, if_neg hc0] at hi hj
        obtain ⟨i2, hi2, rfl⟩ := Option.map_eq_some'.mp hi
        obtain ⟨j2, hj2, rfl⟩ := Option.map_eq_some'.mp hj
        cases r with
        | nil => cases j2 <;> simp [keepCells, cell]
        | cons v r2 =>
          have hstep : keepCells (c0 :: cs) (v :: r2) = v :: keepCells cs r2 := by
            simp [keepCells, haux0']
          rw [hstep]
          show cell (keepCells cs r2) j2 = cell (v :: r2) (i2 + 1)
          exact ih hi2 hj2 r2

/-! ## Statistics: mean, variance, median -/

theorem sum_sq_eq (xs : List ℚ) (h : xs ≠ []) :
    (xs.map (fun x => (x - listMean xs) ^ 2)).sum = xs.length * listVar xs := by
  have hn : (xs.length : ℚ) ≠ 0 := by
    simpa using h
  rw [listVar, mul_div_assoc', mul_comm, mul_div_assoc, div_self hn, mul_one]

theorem listVar_nonneg (xs : List ℚ) : 0 ≤ listVar xs := by
  apply div_nonneg
  · apply List.sum_nonneg
    intro x hx
    obtain ⟨y, _, rfl⟩ := List.mem_map.mp hx
    positivity
  · positivity

theorem eq_zero_of_sum_nonneg_eq_zero : ∀ {l : List ℚ},
    (∀ x ∈ l, 0 ≤ x) → l.sum = 0 → ∀ x ∈ l, x = 0 := by
  intro l
  induction l with
  | nil => simp
  | cons a l ih =>
    intro hpos hsum x hx
    have ha : 0 ≤ a := hpos a (by simp)
    have hl : 0 ≤ l.sum := List.sum_nonneg (fun y hy => hpos y (by simp [hy]))
    have hsum' : a + l.sum = 0 := by simpa using hsum
    rcases List.mem_cons.mp hx with rfl | hx'
    · linarith
    · exact ih (fun y hy => hpos y (by simp [hy])) (by linarith) x hx'

theorem eq_mean_of_listVar_eq_zero {xs : List ℚ} (hv : listVar xs = 0) {x : ℚ}
    (hx : x ∈ xs) : x = listMean xs := by
  have hne : xs ≠ [] := by rintro rfl; cases hx
  have hsum : (xs.map (fun y => (y - listMean xs) ^ 2)).sum = 0 := by
    rw [sum_sq_eq xs hne, hv, mul_zero]
  have h2 : (x - listMean xs) ^ 2 = 0 := by
    refine eq_zero_of_sum_nonneg_eq_zero ?_ hsum _ (List.mem_map_of_mem _ hx)
    intro y hy
    obtain ⟨z, _, rfl⟩ := List.mem_map.mp hy
    positivity
  have h3 : (2 : Nat) ≠ 0 := by norm_num
  have := (pow_eq_zero_iff h3).mp h2
  linarith [sub_eq_zero.mp this]

theorem list_sum_eq_length_mul {xs : List ℚ} {a : ℚ} (h : ∀ x ∈ xs, x = a) :
    xs.sum = xs.length * a := by
  induction xs with
  | nil => simp
  | cons b l ih =>
    have hb : b = a := h b (by simp)
    have hl := ih (fun x hx => h x (by simp [hx]))
    simp only [List.sum_cons, List.length_cons, hb, hl]
    push_cast
    ring

theorem listMean_const {xs : List ℚ} {a : ℚ} (hne : xs ≠ [])
    (h : ∀ x ∈ xs, x = a) : listMean xs = a := by
  have hn : (xs.length : ℚ) ≠ 0 := by
    simpa using hne
  rw [listMean, list_sum_eq_length_mul h, mul_comm, mul_div_assoc, div_self hn, mul_one]

theorem listVar_eq_zero_of_const {xs : List ℚ}
    (h : ∀ x ∈ xs, ∀ y ∈ xs, x = y) : listVar xs = 0 := by
  cases xs with
  | nil => simp [listVar]
  | cons a l =>
    have hconst : ∀ x ∈ a :: l, x = a := fun x hx => h x hx a (by simp)
    have hmean : listMean (a :: l) = a := listMean_const (by simp) hconst
    have hsum : ((a :: l).map (fun x => (x - listMean (a :: l)) ^ 2)).sum = 0 := by
      rw [list_sum_eq_length_mul (a := 0), mul_zero]
      intro y hy
      obtain ⟨z, hz, rfl⟩ := List.mem_map.mp hy
      rw [hconst z hz, hmean]
      ring
    rw [listVar, hsum, zero_div]

theorem length_mul_le_sum {l : List ℚ} {c : ℚ} (h : ∀ x ∈ l, c ≤ x) :
    (l.length : ℚ) * c ≤ l.sum := by
  induction l with
  | nil => simp
  | cons a l ih =>
    have hl := ih (fun x hx => h x (by simp [hx]))
    have ha := h a (by simp)
    simp only [List.length_cons, List.sum_cons]
    push_cast
    linarith

theorem sorted_get_le_of_mem_drop :
    ∀ {s : List ℚ}, List.Sorted (· ≤ ·) s → ∀ (j : Nat) (hj : j < s.length),
      ∀ x ∈ s.drop j, s.get ⟨j, hj⟩ ≤ x := by
  intro s
  induction s with
  | nil => intro _ j hj; simp at hj
  | cons a l ih =>
    intro hs j hj x hx
    cases j with
    | zero =>
      simp only [List.drop_zero] at hx
      rcases List.mem_cons.mp hx with rfl | hx'
      · exact le_refl _
      · exact (List.sorted_cons.mp hs).1 x hx'
    | succ j =>
      exact ih (List.sorted_cons.mp hs).2 j (by simpa using hj) x (by simpa using hx)

theorem sorted_le_get_of_mem_take :
    ∀ {s : List ℚ}, List.Sorted (· ≤ ·) s → ∀ (j : Nat) (hj : j < s.length),
      ∀ x ∈ s.take (j + 1), x ≤ s.get ⟨j, hj⟩ := by
  intro s
  induction s with
  | nil => intro _ j hj; simp at hj
  | cons a l ih =>
    intro hs j hj x hx
    cases j with
    | zero =>
      simp only [List.take, List.take_zero] at hx
      rcases List.mem_singleton.mp (by simpa using hx) with rfl
      exact le_refl _
    | succ j =>
      rcases List.mem_cons.mp (by simpa [List.take_cons] using hx) with rfl | hx'
      · exact (List.sorted_cons.mp hs).1 _ (l.get_mem _ _)
      · exact ih (List.sorted_cons.mp hs).2 j (by simpa using hj) x hx'

/-- The median of a non-empty list is within `√2` population standard
deviations of the mean (square-root-free form): at least half of the values
lie on the far side of the median from the mean, and each contributes at
least `(median - mean)²` to the sum of squared deviations. -/
theorem medianVal_sub_mean_sq_le (xs : List ℚ) (hne : xs ≠ []) :
    (medianVal xs - listMean xs) ^ 2 ≤ 2 * listVar xs := by
  have hn : 0 < xs.length := List.length_pos.mpr hne
  have hperm : (xs.insertionSort (· ≤ ·)).Perm xs := List.perm_insertionSort _ xs
  have hlen : (xs.insertionSort (· ≤ ·)).length = xs.length := hperm.length_eq
  have hsorted : List.Sorted (· ≤ ·) (xs.insertionSort (· ≤ ·)) :=
    List.sorted_insertionSort _ xs
  have hi1 : (xs.length - 1) / 2 < (xs.insertionSort (· ≤ ·)).length := by
    rw [hlen]; omega
  have hi2 : xs.length / 2 < (xs.insertionSort (· ≤ ·)).length := by
    rw [hlen]; omega
  have hmval : medianVal xs =
      ((xs.insertionSort (· ≤ ·)).get ⟨(xs.length - 1) / 2, hi1⟩ +
        (xs.insertionSort (· ≤ ·)).get ⟨xs.length / 2, hi2⟩) / 2 := by
    rw [medianVal]
    rw [List.getD_eq_getElem _ _ hi1, List.getD_eq_getElem _ _ hi2]
    rfl
  have hlohi : (xs.insertionSort (· ≤ ·)).get ⟨(xs.length - 1) / 2, hi1⟩ ≤
      (xs.insertionSort (· ≤ ·)).get ⟨xs.length / 2, hi2⟩ := by
    rcases Nat.lt_or_ge ((xs.length - 1) / 2) (xs.length / 2) with hlt | hge
    · exact List.pairwise_iff_get.mp hsorted _ _ hlt
    · have heq : (xs.length - 1) / 2 = xs.length / 2 := by omega
      simp only [heq]
      exact le_rfl
  have hSperm : ((xs.insertionSort (· ≤ ·)).map
        (fun x => (x - listMean xs) ^ 2)).sum =
      (xs.map (fun x => (x - listMean xs) ^ 2)).sum :=
    (hperm.map _).sum_eq
  have hS : ((xs.insertionSort (· ≤ ·)).map
        (fun x => (x - listMean xs) ^ 2)).sum = xs.length * listVar xs := by
    rw [hSperm, sum_sq_eq xs hne]
  have hvar : 0 ≤ listVar xs := listVar_nonneg xs
  have hD : 0 ≤ (medianVal xs - listMean xs) ^ 2 := sq_nonneg _
  have hnQ : (0 : ℚ) < xs.length := by exact_mod_cast hn
  rcases le_or_lt (listMean xs) (medianVal xs) with hcase | hcase
  · -- the mean is at or below the median: use the upper half of the values
    have hsplit : (((xs.insertionSort (· ≤ ·)).take (xs.length / 2)).map
          (fun x => (x - listMean xs) ^ 2)).sum +
        (((xs.insertionSort (· ≤ ·)).drop (xs.length / 2)).map
          (fun x => (x - listMean xs) ^ 2)).sum =
        ((xs.insertionSort (· ≤ ·)).map (fun x => (x - listMean xs) ^ 2)).sum := by
      rw [List.map_take, List.map_drop]
      exact List.sum_take_add_sum_drop _ _
    have htake : 0 ≤ (((xs.insertionSort (· ≤ ·)).take (xs.length / 2)).map
        (fun x => (x - listMean xs) ^ 2)).sum := by
      apply List.sum_nonneg
      intro y hy
      obtain ⟨z, _, rfl⟩ := List.mem_map.mp hy
      positivity
    have hdropbound : ∀ y ∈ ((xs.insertionSort (· ≤ ·)).drop (xs.length / 2)).map
        (fun x => (x - listMean xs) ^ 2),
        (medianVal xs - listMean xs) ^ 2 ≤ y := by
      intro y hy
      obtain ⟨z, hz, rfl⟩ := List.mem_map.mp hy
      have hzge : (xs.insertionSort (· ≤ ·)).get ⟨xs.length / 2, hi2⟩ ≤ z :=
        sorted_get_le_of_mem_drop hsorted _ hi2 z hz
      have hmz : medianVal xs ≤ z := by rw [hmval]; linarith
      exact pow_le_pow_left₀ (by linarith) (by linarith) 2
    have hdrop : ((((xs.insertionSort (· ≤ ·)).drop (xs.length / 2)).map
          (fun x => (x - listMean xs) ^ 2)).length : ℚ) *
          (medianVal xs - listMean xs) ^ 2 ≤
        (((xs.insertionSort (· ≤ ·)).drop (xs.length / 2)).map
          (fun x => (x - listMean xs) ^ 2)).sum :=
      length_mul_le_sum hdropbound
    have hcount : (((xs.insertionSort (· ≤ ·)).drop (xs.length / 2)).map
        (fun x => (x - listMean xs) ^ 2)).length = xs.length - xs.length / 2 := by
      rw [List.length_map, List.length_drop, hlen]
    have hmain : ((xs.length - xs.length / 2 : Nat) : ℚ) *
        (medianVal xs - listMean xs) ^ 2 ≤ xs.length * listVar xs := by
      rw [← hcount, ← hS, ← hsplit]
      linarith
    have h2c : (xs.length : ℚ) ≤ 2 * ((xs.length - xs.length / 2 : Nat) : ℚ) := by
      have : xs.length ≤ 2 * (xs.length - xs.length / 2) := by omega
      exact_mod_cast this
    have h3 : (xs.length : ℚ) * ((medianVal xs - listMean xs) ^ 2) ≤
        (xs.length : ℚ) * (2 * listVar xs) := by nlinarith
    exact le_of_mul_le_mul_left h3 hnQ
  · -- the mean is above the median: use the lower half of the values
    have hsplit : (((xs.insertionSort (· ≤ ·)).take ((xs.length - 1) / 2 + 1)).map
          (fun x => (x - listMean xs) ^ 2)).sum +
        (((xs.insertionSort (· ≤ ·)).drop ((xs.length - 1) / 2 + 1)).map
          (fun x => (x - listMean xs) ^ 2)).sum =
        ((xs.insertionSort (· ≤ ·)).map (fun x => (x - listMean xs) ^ 2)).sum := by
      rw [List.map_take, List.map_drop]
      exact List.sum_take_add_sum_drop _ _
    have hdropnn : 0 ≤ (((xs.insertionSort (· ≤ ·)).drop ((xs.length - 1) / 2 + 1)).map
        (fun x => (x - listMean xs) ^ 2)).sum := by
      apply List.sum_nonneg
      intro y hy
      obtain ⟨z, _, rfl⟩ := List.mem_map.mp hy
      positivity
    have htakebound : ∀ y ∈ ((xs.insertionSort (· ≤ ·)).take ((xs.length - 1) / 2 + 1)).map
        (fun x => (x - listMean xs) ^ 2),
        (medianVal xs - listMean xs) ^ 2 ≤ y := by
      intro y hy
      obtain ⟨z, hz, rfl⟩ := List.mem_map.mp hy
      have hzle : z ≤ (xs.insertionSort (· ≤ ·)).get ⟨(xs.length - 1) / 2, hi1⟩ :=
        sorted_le_get_of_mem_take hsorted _ hi1 z hz
      have hmz : z ≤ medianVal xs := by rw [hmval]; linarith
      have hsq : ∀ a b : ℚ, (a - b) ^ 2 = (b - a) ^ 2 := fun a b => by ring
      rw [hsq (medianVal xs), hsq z]
      exact pow_le_pow_left₀ (by linarith) (by linarith) 2
    have htake : ((((xs.insertionSort (· ≤ ·)).take ((xs.length - 1) / 2 + 1)).map
          (fun x => (x - listMean xs) ^ 2)).length : ℚ) *
          (medianVal xs - listMean xs) ^ 2 ≤
        (((xs.insertionSort (· ≤ ·)).take ((xs.length - 1) / 2 + 1)).map
          (fun x => (x - listMean xs) ^ 2)).sum :=
      length_mul_le_sum htakebound
    have hcount : (((xs.insertionSort (· ≤ ·)).take ((xs.length - 1) / 2 + 1)).map
        (fun x => (x - listMean xs) ^ 2)).length = (xs.length - 1) / 2 + 1 := by
      rw [List.length_map, List.length_take, hlen]
      omega
    have hmain : (((xs.length - 1) / 2 + 1 : Nat) : ℚ) *
        (medianVal xs - listMean xs) ^ 2 ≤ xs.length * listVar xs := by
      rw [← hcount, ← hS, ← hsplit]
      linarith
    have h2c : (xs.length : ℚ) ≤ 2 * (((xs.length - 1) / 2 + 1 : Nat) : ℚ) := by
      have : xs.length ≤ 2 * ((xs.length - 1) / 2 + 1) := by omega
      exact_mod_cast this
    have h3 : (xs.length : ℚ) * ((medianVal xs - listMean xs) ^ 2) ≤
        (xs.length : ℚ) * (2 * listVar xs) := by nlinarith
    exact le_of_mul_le_mul_left h3 hnQ

/-! ## The imputation step as simultaneous median filling -/

theorem length_foldl_fill : ∀ (fs : List (Nat × ℚ)) (r : Row),
    (fs.foldl (fun acc p => fillRow p.2 p.1 acc) r).length = r.length := by
  intro fs
  induction fs with
  | nil => intro r; rfl
  | cons f fs ih =>
    intro r
    rw [List.foldl_cons, ih, length_fillRow]

theorem cell_foldl_fill : ∀ (fs : List (Nat × ℚ)) (r : Row) (j : Nat),
    cell (fs.foldl (fun acc p => fillRow p.2 p.1 acc) r) j =
      match cell r j with
      | some x => some x
      | none => if j < r.length then List.lookup j fs else none := by
  intro fs
  induction fs with
  | nil =>
    intro r j
    cases h : cell r j with
    | some x => simp [h]
    | none => simp [h]
  | cons f fs ih =>
    intro r j
    obtain ⟨i, m⟩ := f
    rw [List.foldl_cons, ih (fillRow m i r) j, length_fillRow]
    by_cases hji : j = i
    · subst hji
      rw [cell_fillRow_self]
      by_cases hlt : j < r.length
      · simp only [hlt, if_true]
        cases h : cell r j with
        | some x => simp [fillCell]
        | none => simp [fillCell, List.lookup]
      · simp only [hlt, if_false]
        have h := cell_eq_none_of_le r j (by omega)
        simp [h, hlt]
    · rw [cell_fillRow_ne m i j r hji]
      cases h : cell r j with
      | some x => rfl
      | none =>
        have hbeq : (j == i) = false := by simpa using hji
        simp [List.lookup, hbeq]

theorem length_imputeRowAll (d : Dataset) (kc : List String) (r : Row) :
    (imputeRowAll d kc r).length = r.length :=
  length_foldl_fill _ r

theorem cell_imputeRowAll (d : Dataset) (kc : List String) (r : Row) (j : Nat) :
    cell (imputeRowAll d kc r) j =
      match cell r j with
      | some x => some x
      | none => if j < r.length then List.lookup j (fillsOf d kc) else none :=
  cell_foldl_fill _ r j

theorem fillsOf_append (d : Dataset) (a b : List String) :
    fillsOf d (a ++ b) = fillsOf d a ++ fillsOf d b :=
  List.filterMap_append _ _ _

theorem imputeRowAll_append (d : Dataset) (a b : List String) (r : Row) :
    imputeRowAll d (a ++ b) r =
      (fillsOf d b).foldl (fun acc p => fillRow p.2 p.1 acc) (imputeRowAll d a r) := by
  rw [imputeRowAll, fillsOf_append, List.foldl_append]
  rfl

theorem lookup_fillsOf_some {d : Dataset} {kc : List String} {j : Nat} {m : ℚ}
    (h : List.lookup j (fillsOf d kc) = some m) :
    ∃ c ∈ kc, colIdx d.cols c = some j ∧ median (presentVals d c) = some m := by
  induction kc with
  | nil => simp [fillsOf] at h
  | cons c0 kc ih =>
    rw [fillsOf, List.filterMap_cons] at h
    rcases hc0 : colIdx d.cols c0 with _ | i0
    · rw [hc0] at h
      obtain ⟨c, hc, hcj, hcm⟩ := ih h
      exact ⟨c, by simp [hc], hcj, hcm⟩
    · rw [hc0] at h
      rcases hm0 : median (presentVals d c0) with _ | m0
      · rw [hm0] at h
        obtain ⟨c, hc, hcj, hcm⟩ := ih h
        exact ⟨c, by simp [hc], hcj, hcm⟩
      · rw [hm0] at h
        simp only [Option.map_some'] at h
        by_cases hji : j = i0
        · subst hji
          rw [List.lookup] at h
          simp only [beq_self_eq_true] at h
          exact ⟨c0, by simp, hc0, by rw [hm0]; exact congrArg some (Option.some.inj h)⟩
        · rw [List.lookup] at h
          have hbeq : (j == i0) = false := by simpa using hji
          simp only [hbeq] at h
          obtain ⟨c, hc, hcj, hcm⟩ := ih h
          exact ⟨c, by simp [hc], hcj, hcm⟩

theorem lookup_fillsOf_of {d : Dataset} {kc : List String} {c : String} {j : Nat}
    {m : ℚ} (hc : c ∈ kc) (hj : colIdx d.cols c = some j)
    (hm : median (presentVals d c) = some m) :
    List.lookup j (fillsOf d kc) = some m := by
  induction kc with
  | nil => cases hc
  | cons c0 kc ih =>
    rw [fillsOf, List.filterMap_cons]
    rcases hc0 : colIdx d.cols c0 with _ | i0
    · rcases List.mem_cons.mp hc with rfl | hc'
      · rw [hc0] at hj; exact Option.noConfusion hj
      · exact ih hc'
    · rcases hm0 : median (presentVals d c0) with _ | m0
      · rcases List.mem_cons.mp hc with rfl | hc'
        · rw [hc0] at hj
          rw [hj] at hc0
          rw [hm0] at hm
          exact Option.noConfusion hm
        · exact ih hc'
      · simp only [Option.map_some']
        by_cases hji : j = i0
        · subst hji
          have hname : c0 = c := colIdx_name_unique hc0 hj
          subst hname
          rw [hm0] at hm
          rw [List.lookup]
          simp only [beq_self_eq_true]
          exact congrArg some (Option.some.inj hm)
        · rw [List.lookup]
          have hbeq : (j == i0) = false := by simpa using hji
          simp only [hbeq]
          rcases List.mem_cons.mp hc with rfl | hc'
          · rw [hc0] at hj
            exact absurd (Option.some.inj hj).symm hji
          · exact ih hc'

theorem lookup_fillsOf_none {d : Dataset} {kc : List String} {j : Nat}
    (h : ∀ c ∈ kc, colIdx d.cols c ≠ some j) :
    List.lookup j (fillsOf d kc) = none := by
  cases hlk : List.lookup j (fillsOf d kc) with
  | none => rfl
  | some m =>
    obtain ⟨c, hc, hcj, _⟩ := lookup_fillsOf_some hlk
    exact absurd hcj (h c hc)

theorem mem_rows_of_mem_flagRows {d : Dataset} {kc : List String} {t : ℚ}
    {p : Row × List Bool} (hp : p ∈ flagRows d kc t) : p.1 ∈ d.rows := by
  obtain ⟨r, hr, rfl⟩ := List.mem_map.mp hp
  exact hr

theorem flags_of_mem_flagRows {d : Dataset} {kc : List String} {t : ℚ}
    {p : Row × List Bool} (hp : p ∈ flagRows d kc t) :
    p.2 = (presentKeyCols d kc).map (fun c => flagOf d t c p.1) := by
  obtain ⟨r, hr, rfl⟩ := List.mem_map.mp hp
  rfl

/-- Processing one key column of the imputation loop, started from the raw
rows already imputed for a prefix `pre` of the columns, gives the rows
imputed for `pre ++ [c]`: the running medians the loop computes agree with
the pre-clean medians. -/
theorem imputeCol_mapped (d : Dataset) (kc : List String) (t : ℚ)
    (pre : List String) (c : String) (hWF : d.WF) :
    imputeCol d.cols c
        ((flagRows d kc t).map (fun p => (imputeRowAll d pre p.1, p.2))) =
      (flagRows d kc t).map (fun p => (imputeRowAll d (pre ++ [c]) p.1, p.2)) := by
  rcases hc : colIdx d.cols c with _ | i
  · -- absent column: the loop skips it and it contributes no fill
    have hfc : fillsOf d [c] = [] := by
      simp [fillsOf, List.filterMap_cons, hc]
    have hrw : ∀ r : Row, imputeRowAll d (pre ++ [c]) r = imputeRowAll d pre r := by
      intro r
      rw [imputeRowAll_append, hfc, List.foldl_nil]
    simp only [imputeCol, hc]
    exact (List.map_congr_left (fun p _ => by rw [hrw])).symm
  · have hiwf : ∀ r ∈ d.rows, i < r.length := by
      intro r hr
      rw [hWF r hr]
      exact colIdx_lt hc
    simp only [imputeCol, hc]
    rcases hlk : List.lookup i (fillsOf d pre) with _ | m0
    · -- column `i` untouched so far: its current cells are the raw ones
      have hcell : ∀ r : Row, cell (imputeRowAll d pre r) i = cell r i := by
        intro r
        rw [cell_imputeRowAll]
        cases hcr : cell r i with
        | some x => rfl
        | none => by_cases h : i < r.length <;> simp [h, hlk]
      have hcur : ((flagRows d kc t).map
            (fun p => (imputeRowAll d pre p.1, p.2))).map (fun p => cell p.1 i) =
          (flagRows d kc t).map (fun p => cell p.1 i) := by
        rw [List.map_map]
        exact List.map_congr_left (fun p _ => by simp [Function.comp, hcell])
      have hcur2 : (flagRows d kc t).map (fun p => cell p.1 i) =
          d.rows.map (fun r => cell r i) := by
        rw [flagRows, List.map_map]
        exact List.map_congr_left (fun r _ => rfl)
      have hpres : presentVals d c =
          (((flagRows d kc t).map (fun p => (imputeRowAll d pre p.1, p.2))).map
            (fun p => cell p.1 i)).filterMap id := by
        rw [hcur, hcur2, presentVals, colCells, hc]
      rcases hmed : median (presentVals d c) with _ | m
      · -- all-missing column: `fillna(NaN)` is a no-op and no fill is recorded
        have hfc : fillsOf d [c] = [] := by
          simp [fillsOf, List.filterMap_cons, hc, hmed]
        have hrw : ∀ r : Row, imputeRowAll d (pre ++ [c]) r = imputeRowAll d pre r := by
          intro r
          rw [imputeRowAll_append, hfc, List.foldl_nil]
        rw [← hpres]
        by_cases hany : (((flagRows d kc t).map
            (fun p => (imputeRowAll d pre p.1, p.2))).map
              (fun p => cell p.1 i)).any (fun v => v.isNone)
        · simp only [hany, if_true, hmed]
          exact (List.map_congr_left (fun p _ => by rw [hrw])).symm
        · simp only [Bool.not_eq_true] at hany
          simp only [hany, Bool.false_eq_true, if_false]
          exact (List.map_congr_left (fun p _ => by rw [hrw])).symm
      · -- the median exists and is the pre-clean one
        have hfc : fillsOf d [c] = [(i, m)] := by
          simp [fillsOf, List.filterMap_cons, hc, hmed]
        have hrw : ∀ r : Row,
            imputeRowAll d (pre ++ [c]) r = fillRow m i (imputeRowAll d pre r) := by
          intro r
          rw [imputeRowAll_append, hfc, List.foldl_cons, List.foldl_nil]
        rw [← hpres]
        by_cases hany : (((flagRows d kc t).map
            (fun p => (imputeRowAll d pre p.1, p.2))).map
              (fun p => cell p.1 i)).any (fun v => v.isNone)
        · simp only [hany, if_true, hmed]
          rw [List.map_map]
          exact (List.map_congr_left (fun p _ => by simp [Function.comp, hrw])).symm
        · -- no missing cell: the fill is the identity on every current row
          simp only [Bool.not_eq_true] at hany
          simp only [hany, Bool.false_eq_true, if_false]
          rw [List.any_eq_false] at hany
          refine (List.map_congr_left (fun p hp => ?_)).symm
          have hiS : ¬ (cell (imputeRowAll d pre p.1, p.2).1 i).isNone := by
            refine hany _ (List.mem_map.mpr ⟨(imputeRowAll d pre p.1, p.2), ?_, rfl⟩)
            exact List.mem_map.mpr ⟨p, hp, rfl⟩
          rw [hrw]
          cases hcc : cell (imputeRowAll d pre p.1) i with
          | none => exact absurd (by simp [hcc]) hiS
          | some x => rw [fillRow_eq_self_of_some m i _ hcc]
    · -- column `i` was already imputed: every current cell is non-missing,
      -- so the loop skips it, and re-adding the same fill changes nothing
      obtain ⟨c1, hc1, hc1j, hc1m⟩ := lookup_fillsOf_some hlk
      have hc1c : c1 = c := colIdx_name_unique hc1j hc
      subst hc1c
      have hcellS : ∀ r ∈ d.rows, ¬ (cell (imputeRowAll d pre r) i).isNone := by
        intro r hr
        rw [cell_imputeRowAll]
        cases hcr : cell r i with
        | some x => simp
        | none => simp [hiwf r hr, hlk]
      have hany : (((flagRows d kc t).map
          (fun p => (imputeRowAll d pre p.1, p.2))).map
            (fun p => cell p.1 i)).any (fun v => v.isNone) = false := by
        rw [List.any_eq_false]
        intro v hv
        obtain ⟨q, hq, rfl⟩ := List.mem_map.mp hv
        obtain ⟨p, hp, rfl⟩ := List.mem_map.mp hq
        exact hcellS p.1 (mem_rows_of_mem_flagRows hp)
      simp only [hany, Bool.false_eq_true, if_false]
      have hfc : fillsOf d [c1] = [(i, m0)] := by
        simp [fillsOf, List.filterMap_cons, hc, hc1m]
      refine (List.map_congr_left (fun p hp => ?_)).symm
      rw [imputeRowAll_append, hfc, List.foldl_cons, List.foldl_nil]
      have hiS := hcellS p.1 (mem_rows_of_mem_flagRows hp)
      cases hcc : cell (imputeRowAll d pre p.1) i with
      | none => exact absurd (by simp [hcc]) hiS
      | some x => rw [fillRow_eq_self_of_some m0 i _ hcc]

/-- The imputation loop started from rows already imputed for `pre` imputes
the remaining columns `suf`. -/
theorem imputeStep_go (d : Dataset) (kc : List String) (t : ℚ) (hWF : d.WF) :
    ∀ (suf pre : List String),
      imputeStep d.cols suf
          ((flagRows d kc t).map (fun p => (imputeRowAll d pre p.1, p.2))) =
        (flagRows d kc t).map (fun p => (imputeRowAll d (pre ++ suf) p.1, p.2)) := by
  intro suf
  induction suf with
  | nil => intro pre; simp [imputeStep]
  | cons c suf ih =>
    intro pre
    rw [imputeStep, List.foldl_cons]
    have h1 := imputeCol_mapped d kc t pre c hWF
    rw [h1]
    have h2 := ih (pre ++ [c])
    rw [imputeStep] at h2
    rw [h2, List.append_assoc]
    rfl

/-- Cell `35dd3e22`'s sequential in-place imputation loop equals one
simultaneous pass filling every missing target cell with its column's
pre-clean median. -/
theorem imputeStep_eq (d : Dataset) (kc : List String) (t : ℚ) (hWF : d.WF) :
    imputeStep d.cols kc (flagRows d kc t) =
      (flagRows d kc t).map (fun p => (imputeRowAll d kc p.1, p.2)) := by
  have h := imputeStep_go d kc t hWF kc []
  have hid : (flagRows d kc t).map (fun p => (imputeRowAll d [] p.1, p.2)) =
      flagRows d kc t := by
    refine List.map_congr_left (fun p _ => ?_) |>.trans (List.map_id _)
    rfl
  rw [hid] at h
  simpa using h

/-! ## The outlier-removal loop as one filter -/

theorem removeOutliers_succ (k : Nat) (rows : List (Row × List Bool)) :
    removeOutliers (k + 1) rows =
      (removeOutliers k rows).filter (fun p => !(p.2.getD k false)) := by
  rw [removeOutliers, removeOutliers, List.range_succ, List.foldl_append]
  rfl

theorem removeOutliers_sublist (k : Nat) (rows : List (Row × List Bool)) :
    (removeOutliers k rows).Sublist rows := by
  induction k with
  | zero => rw [removeOutliers]; exact List.Sublist.refl rows
  | succ k ih => rw [removeOutliers_succ]; exact (List.filter_sublist _).trans ih

theorem removeOutliers_eq_filter_range (k : Nat) (rows : List (Row × List Bool)) :
    removeOutliers k rows =
      rows.filter (fun p => (List.range k).all (fun j => !(p.2.getD j false))) := by
  induction k with
  | zero =>
    rw [removeOutliers]
    simp
  | succ k ih =>
    rw [removeOutliers_succ, ih, List.filter_filter]
    refine List.filter_congr (fun p _ => ?_)
    rw [List.range_succ, List.all_append]
    simp [Bool.and_comm]

theorem range_all_getD (l : List Bool) :
    (List.range l.length).all (fun j => !(l.getD j false)) = !(l.any id) := by
  induction l with
  | nil => simp
  | cons b l ih =>
    rw [List.length_cons, List.range_succ_eq_map, List.all_cons, List.all_map]
    have hcomp : ((fun j => !((b :: l).getD j false)) ∘ Nat.succ) =
        (fun j => !(l.getD j false)) := by
      funext j
      simp [Function.comp, List.getD_cons_succ]
    rw [hcomp, ih]
    simp

/-- The per-flag-column filtering loop keeps exactly the rows with no flag
set, provided every row carries one flag per flag column. -/
theorem removeOutliers_eq (k : Nat) (rows : List (Row × List Bool))
    (h : ∀ p ∈ rows, p.2.length = k) :
    removeOutliers k rows = rows.filter (fun p => !(p.2.any id)) := by
  rw [removeOutliers_eq_filter_range]
  refine List.filter_congr (fun p hp => ?_)
  rw [← h p hp, range_all_getD]

/-! ## Inverting a run of the pipeline -/

theorem clean_ok_iff {d : Dataset} {kc : List String} {t : ℚ} {d' : Dataset}
    {rep : Report} :
    clean d kc t = .ok (d', rep) ↔
      (∀ c ∈ kc, c ∈ d.cols) ∧
      d' = ⟨d.cols.filter (fun c => !(isAuxCol c)),
        (removeOutliers (presentKeyCols d kc).length
          (dropnaStep (keyIdxs d kc)
            (imputeStep d.cols kc (flagRows d kc t)))).map
          (fun p => keepCells d.cols p.1)⟩ ∧
      rep = report d kc t := by
  simp only [clean]
  by_cases hg : kc.all (fun c => decide (c ∈ d.cols)) = true
  · rw [if_pos hg]
    simp only [List.all_eq_true, decide_eq_true_eq] at hg
    constructor
    · intro h
      obtain ⟨h1, h2⟩ := Prod.mk.injEq .. ▸ Except.ok.inj h
      exact ⟨hg, h1.symm, h2.symm⟩
    · rintro ⟨_, rfl, rfl⟩
      rfl
  · rw [if_neg hg]
    constructor
    · intro h; exact absurd h (by intro hh; cases hh)
    · rintro ⟨h1, _, _⟩
      exact absurd (by simpa using h1) hg

theorem clean_error_iff {d : Dataset} {kc : List String} {t : ℚ} :
    (∃ e, clean d kc t = .error e) ↔ ∃ c ∈ kc, c ∉ d.cols := by
  simp only [clean]
  by_cases hg : kc.all (fun c => decide (c ∈ d.cols)) = true
  · rw [if_pos hg]
    simp only [List.all_eq_true, decide_eq_true_eq] at hg
    constructor
    · rintro ⟨e, he⟩; exact absurd he (by intro hh; cases hh)
    · rintro ⟨c, hc, habs⟩; exact absurd (hg c hc) habs
  · rw [if_neg hg]
    constructor
    · intro _
      simp only [List.all_eq_true, decide_eq_true_eq, not_forall] at hg
      obtain ⟨c, hc, habs⟩ := hg
      exact ⟨c, hc, habs⟩
    · intro _; exact ⟨"KeyError", rfl⟩

/-- The notebook's pipeline equals the pipeline in the spec's step order:
z-scores and flags first (on pre-imputation data), then median imputation,
then the drop of still-missing rows, then the drop of flagged rows. -/
theorem clean_eq_cleanSpecOrder_of_wf (d : Dataset) (kc : List String) (t : ℚ)
    (hWF : d.WF) : clean d kc t = cleanSpecOrder d kc t := by
  simp only [clean, cleanSpecOrder]
  by_cases hg : kc.all (fun c => decide (c ∈ d.cols)) = true
  · rw [if_pos hg, if_pos hg]
    have hrows : removeOutliers (presentKeyCols d kc).length
        (dropnaStep (keyIdxs d kc) (imputeStep d.cols kc (flagRows d kc t))) =
        (((flagRows d kc t).map (fun p => (imputeRowAll d kc p.1, p.2))).filter
          (fun p => (keyIdxs d kc).all (fun i => (cell p.1 i).isSome))).filter
          (fun p => !(p.2.any id)) := by
      rw [imputeStep_eq d kc t hWF]
      rw [removeOutliers_eq]
      · rfl
      · intro p hp
        have hp2 := (List.filter_sublist _).subset hp
        obtain ⟨q, hq, rfl⟩ := List.mem_map.mp hp2
        rw [flags_of_mem_flagRows hq]
        exact List.length_map _ _
    rw [hrows]
  · rw [if_neg hg, if_neg hg]

theorem clean_ok_cols {d : Dataset} {kc : List String} {t : ℚ} {d' : Dataset}
    {rep : Report} (h : clean d kc t = .ok (d', rep)) :
    d'.cols = d.cols.filter (fun c => !(isAuxCol c)) := by
  obtain ⟨_, hd, _⟩ := clean_ok_iff.mp h
  rw [hd]

/-- Every column of a cleaned dataset is a data column: the final drop has
removed every reserved-suffix name. -/
theorem clean_ok_cols_auxfree {d : Dataset} {kc : List String} {t : ℚ}
    {d' : Dataset} {rep : Report} (h : clean d kc t = .ok (d', rep)) :
    ∀ c ∈ d'.cols, isAuxCol c = false := by
  intro c hc
  rw [clean_ok_cols h] at hc
  have := (List.mem_filter.mp hc).2
  simpa using this

/-- Every row of a cleaned dataset is no wider than its column list. -/
theorem clean_ok_row_length_le {d : Dataset} {kc : List String} {t : ℚ}
    {d' : Dataset} {rep : Report} (h : clean d kc t = .ok (d', rep)) :
    ∀ r ∈ d'.rows, r.length ≤ d'.cols.length := by
  obtain ⟨_, hd, _⟩ := clean_ok_iff.mp h
  subst hd
  intro r hr
  obtain ⟨p, hp, rfl⟩ := List.mem_map.mp hr
  exact length_keepCells_le d.cols p.1

/-- Just before the final column drop, every key column's cell is
non-missing in every surviving row: the `dropna(subset=key_cols)` filter
guarantees it and the outlier filter only removes rows. -/
theorem pipeline_cell_isSome (d : Dataset) (kc : List String) (t : ℚ)
    {c : String} {i : Nat} (hc : c ∈ kc) (hi : colIdx d.cols c = some i) :
    ∀ p ∈ removeOutliers (presentKeyCols d kc).length
        (dropnaStep (keyIdxs d kc) (imputeStep d.cols kc (flagRows d kc t))),
      (cell p.1 i).isSome = true := by
  intro p hp
  have hp2 := (removeOutliers_sublist _ _).subset hp
  rw [dropnaStep] at hp2
  have hkeep := (List.mem_filter.mp hp2).2
  rw [List.all_eq_true] at hkeep
  exact hkeep i (List.mem_filterMap.mpr ⟨c, hc, hi⟩)

/-- After a successful run, a data-named key column (read at its position
in the cleaned column list) is non-missing in every surviving row. -/
theorem clean_ok_cell_isSome {d : Dataset} {kc : List String} {t : ℚ}
    {c : String} {i j : Nat} {d' : Dataset} {rep : Report}
    (h : clean d kc t = .ok (d', rep)) (hc : c ∈ kc)
    (hcaux : isAuxCol c = false) (hi : colIdx d.cols c = some i)
    (hj : colIdx d'.cols c = some j) :
    ∀ r ∈ d'.rows, (cell r j).isSome = true := by
  obtain ⟨hall, hd, _⟩ := clean_ok_iff.mp h
  have hj2 : colIdx (d.cols.filter (fun x => !(isAuxCol x))) c = some j := by
    rw [hd] at hj
    exact hj
  subst hd
  intro r hr
  obtain ⟨p, hp, rfl⟩ := List.mem_map.mp hr
  rw [cell_keepCells_some hcaux hi hj2 p.1]
  exact pipeline_cell_isSome d kc t hc hi p hp

/-- Inversion of a successful run in the spec-order form: the surviving rows
are exactly the flag-decorated raw rows, imputed, that pass the missing-value
filter and the outlier filter. -/
theorem clean_ok_rows_eq {d : Dataset} {kc : List String} {t : ℚ} {d' : Dataset}
    {rep : Report} (hWF : d.WF) (h : clean d kc t = .ok (d', rep)) :
    d'.rows = ((((flagRows d kc t).map (fun p => (imputeRowAll d kc p.1, p.2))).filter
        (fun p => (keyIdxs d kc).all (fun i => (cell p.1 i).isSome))).filter
        (fun p => !(p.2.any id))).map (fun p => keepCells d.cols p.1) := by
  rw [clean_eq_cleanSpecOrder_of_wf d kc t hWF] at h
  simp only [cleanSpecOrder] at h
  by_cases hg : kc.all (fun c => decide (c ∈ d.cols)) = true
  · rw [if_pos hg] at h
    obtain ⟨h1, _⟩ := Prod.mk.injEq .. ▸ Except.ok.inj h
    rw [← h1]
  · rw [if_neg hg] at h
    cases h

theorem imputeStep_cons (cols : List String) (c : String) (kcs : List String)
    (rows : List (Row × List Bool)) :
    imputeStep cols (c :: kcs) rows = imputeStep cols kcs (imputeCol cols c rows) := by
  rw [imputeStep, imputeStep, List.foldl_cons]

theorem mem_imputeCol_exists (cols : List String) (c : String)
    (rows : List (Row × List Bool)) :
    ∀ q ∈ imputeCol cols c rows, ∃ p ∈ rows, q.1.length = p.1.length ∧ q.2 = p.2 := by
  intro q hq
  rcases hc : colIdx cols c with _ | i
  · simp only [imputeCol, hc] at hq
    exact ⟨q, hq, rfl, rfl⟩
  · simp only [imputeCol, hc] at hq
    by_cases hany : ((rows.map (fun p => cell p.1 i)).any (fun v => v.isNone)) = true
    · rw [if_pos hany] at hq
      rcases hmed : median ((rows.map (fun p => cell p.1 i)).filterMap id) with _ | m
      · rw [hmed] at hq
        exact ⟨q, hq, rfl, rfl⟩
      · rw [hmed] at hq
        obtain ⟨p, hp, rfl⟩ := List.mem_map.mp hq
        exact ⟨p, hp, length_fillRow m i p.1, rfl⟩
    · rw [if_neg hany] at hq
      exact ⟨q, hq, rfl, rfl⟩

theorem mem_imputeStep_exists (cols : List String) :
    ∀ (kcs : List String) (rows : List (Row × List Bool)),
      ∀ q ∈ imputeStep cols kcs rows,
        ∃ p ∈ rows, q.1.length = p.1.length ∧ q.2 = p.2 := by
  intro kcs
  induction kcs with
  | nil => intro rows q hq; exact ⟨q, hq, rfl, rfl⟩
  | cons c kcs ih =>
    intro rows q hq
    rw [imputeStep_cons] at hq
    obtain ⟨p1, hp1, hl1, hs1⟩ := ih (imputeCol cols c rows) q hq
    obtain ⟨p, hp, hl2, hs2⟩ := mem_imputeCol_exists cols c rows p1 hp1
    exact ⟨p, hp, hl1.trans hl2, hs1.trans hs2⟩

/-- When no key column of any row is missing, the imputation loop does
nothing. -/
theorem imputeStep_id (cols : List String) :
    ∀ (kcs : List String) (rows : List (Row × List Bool)),
      (∀ c ∈ kcs, ∀ i, colIdx cols c = some i →
        ∀ p ∈ rows, (cell p.1 i).isSome = true) →
      imputeStep cols kcs rows = rows := by
  intro kcs
  induction kcs with
  | nil => intro rows _; rfl
  | cons c kcs ih =>
    intro rows hall
    rw [imputeStep_cons]
    have hcol : imputeCol cols c rows = rows := by
      rcases hc : colIdx cols c with _ | i
      · simp only [imputeCol, hc]
      · have hany : ((rows.map (fun p => cell p.1 i)).any (fun v => v.isNone)) = false := by
          rw [List.any_eq_false]
          intro v hv
          obtain ⟨p, hp, rfl⟩ := List.mem_map.mp hv
          have := hall c (by simp) i hc p hp
          cases hcc : cell p.1 i with
          | none => rw [hcc] at this; cases this
          | some x => simp [hcc]
        simp only [imputeCol, hc, hany, Bool.false_eq_true, if_false]
    rw [hcol]
    exact ih rows (fun c2 hc2 i hi p hp => hall c2 (by simp [hc2]) i hi p hp)

/-! ## The claims -/

/-- C1: for every input dataset and every target column present in it, if
the cleaning pipeline completes then that column of the cleaned dataset
contains no missing value.  (It holds for empty datasets as well, so the
claim's non-emptiness restriction is not needed.) -/
theorem cleaned_no_missing (d : Dataset) (kc : List String) (t : ℚ)
    (c : String) (d' : Dataset) (rep : Report)
    (h : clean d kc t = .ok (d', rep)) (hc : c ∈ kc) (hmem : c ∈ d.cols) :
    ∀ v ∈ colCells d' c, v.isSome = true := by
  intro v hv
  have hcols := clean_ok_cols h
  by_cases hcaux : isAuxCol c = true
  · -- a reserved-suffix column is deleted by the final drop: no values at all
    have hnone : colIdx d'.cols c = none := by
      rw [hcols]
      exact colIdx_keep_none_of_aux hcaux
    rw [colCells, hnone] at hv
    cases hv
  · have hcaux2 : isAuxCol c = false := by simpa using hcaux
    obtain ⟨i, hi⟩ := Option.isSome_iff_exists.mp ((colIdx_isSome_iff d.cols c).mpr hmem)
    obtain ⟨j, hjf⟩ := colIdx_keep_isSome hcaux2 hmem
    have hj : colIdx d'.cols c = some j := by rw [hcols]; exact hjf
    rw [colCells, hj] at hv
    obtain ⟨r, hr, rfl⟩ := List.mem_map.mp hv
    exact clean_ok_cell_isSome h hc hcaux2 hi hj r hr

/-- C2: with threshold `3.0`, every value of a target column in the cleaned
dataset has absolute z-score at most the threshold against the column's
original pre-clean mean and population standard deviation `σ = √v`
(square-root-free: `(x - μ)² ≤ 3² * v`); in particular imputed pre-clean
medians satisfy the bound, because a median is always within `√2 ≤ 3`
standard deviations of the mean.  The column's cleaned values are accessed
through `colCells`, which reads the column at its position in the cleaned
column list (a reserved-suffix target column has been deleted by the final
drop and contributes no values). -/
theorem cleaned_zscore_bound (d : Dataset) (kc : List String) (c : String)
    (d' : Dataset) (rep : Report) (hWF : d.WF)
    (h : clean d kc 3 = .ok (d', rep)) (hc : c ∈ kc) :
    ∀ v ∈ colCells d' c, ∀ x : ℚ, v = some x →
      (x - listMean (presentVals d c)) ^ 2 ≤ 3 ^ 2 * listVar (presentVals d c) := by
  intro v hv x hvx
  subst hvx
  have hcols := clean_ok_cols h
  by_cases hcaux : isAuxCol c = true
  · -- a reserved-suffix target column is deleted from the output: no values
    have hnone : colIdx d'.cols c = none := by
      rw [hcols]
      exact colIdx_keep_none_of_aux hcaux
    rw [colCells, hnone] at hv
    cases hv
  · have hcaux2 : isAuxCol c = false := by simpa using hcaux
    have hmem : c ∈ d.cols := (clean_ok_iff.mp h).1 c hc
    obtain ⟨i, hi⟩ := Option.isSome_iff_exists.mp ((colIdx_isSome_iff d.cols c).mpr hmem)
    obtain ⟨j, hjf⟩ := colIdx_keep_isSome hcaux2 hmem
    have hj : colIdx d'.cols c = some j := by rw [hcols]; exact hjf
    rw [colCells, hj] at hv
    obtain ⟨r, hr, hcellr⟩ := List.mem_map.mp hv
    rw [clean_ok_rows_eq hWF h] at hr
    obtain ⟨p, hp, rfl⟩ := List.mem_map.mp hr
    rw [cell_keepCells_some hcaux2 hi hjf p.1] at hcellr
    have hpf2 := List.mem_filter.mp hp
    have hnoflag := hpf2.2
    have hpf1 := List.mem_filter.mp hpf2.1
    obtain ⟨q, hq, hpq⟩ := List.mem_map.mp hpf1.1
    rw [← hpq] at hcellr hnoflag
    have hqrow := mem_rows_of_mem_flagRows hq
    have hflagmem : flagOf d 3 c q.1 ∈ q.2 := by
      rw [flags_of_mem_flagRows hq]
      refine List.mem_map_of_mem _ ?_
      rw [presentKeyCols]
      refine List.mem_filter.mpr ⟨hc, ?_⟩
      simpa using hmem
    have hflag : flagOf d 3 c q.1 = false := by
      simp only [Bool.not_eq_true'] at hnoflag
      rw [List.any_eq_false] at hnoflag
      simpa using hnoflag _ hflagmem
    rw [cell_imputeRowAll] at hcellr
    have hpresent : presentVals d c = (d.rows.map (fun r2 => cell r2 i)).filterMap id := by
      rw [presentVals, colCells, hi]
    cases hcc : cell q.1 i with
    | some x0 =>
      rw [hcc] at hcellr
      obtain rfl : x0 = x := Option.some.inj hcellr
      simp only [flagOf, hi, hcc, outlierFlag] at hflag
      have hflag2 : ¬ (listVar (presentVals d c) ≠ 0 ∧
          (x0 - listMean (presentVals d c)) ^ 2 > 3 ^ 2 * listVar (presentVals d c)) := by
        intro hcontra
        rw [decide_eq_true hcontra.1, decide_eq_true hcontra.2] at hflag
        simp at hflag
      by_cases hv0 : listVar (presentVals d c) = 0
      · have hxmem : x0 ∈ presentVals d c := by
          rw [hpresent]
          refine List.mem_filterMap.mpr ⟨some x0, ?_, rfl⟩
          exact List.mem_map.mpr ⟨q.1, hqrow, hcc⟩
        have hxm := eq_mean_of_listVar_eq_zero hv0 hxmem
        rw [hxm, hv0]
        simp
      · have := hflag2
        push_neg at this
        exact this hv0
    | none =>
      rw [hcc] at hcellr
      have hlen : i < q.1.length := by
        rw [hWF q.1 hqrow]
        exact colIdx_lt hi
      rw [if_pos hlen] at hcellr
      obtain ⟨c1, hc1, hc1i, hc1m⟩ := lookup_fillsOf_some hcellr
      obtain rfl : c1 = c := colIdx_name_unique hc1i hi
      rw [median] at hc1m
      by_cases hlen0 : (presentVals d c1).length = 0
      · rw [if_pos hlen0] at hc1m
        exact Option.noConfusion hc1m
      · rw [if_neg hlen0] at hc1m
        obtain rfl : medianVal (presentVals d c1) = x := Option.some.inj hc1m
        have hne : presentVals d c1 ≠ [] := by
          intro hnil
          rw [hnil] at hlen0
          exact hlen0 rfl
        have hb := medianVal_sub_mean_sq_le (presentVals d c1) hne
        have hv2 := listVar_nonneg (presentVals d c1)
        have h92 : (3 : ℚ) ^ 2 = 9 := by norm_num
        rw [h92]
        linarith

/-- C4: the pipeline performs its steps in the spec's order — flags from
pre-imputation statistics, then median imputation, then the drop of rows
still missing a target value, then the drop of outlier-flagged rows (the
flags of step 1, not recomputed) — on every rectangular dataset. -/
theorem clean_follows_spec_step_order (d : Dataset) (kc : List String)
    (t : ℚ) (hWF : d.WF) : clean d kc t = cleanSpecOrder d kc t :=
  clean_eq_cleanSpecOrder_of_wf d kc t hWF

/-- C9 (amended): the cleaned dataset contains exactly the original
columns whose names do not end in `'_zscore'` or `'_outlier'`, in their
original order — the final drop deletes the auxiliary attributes by that
suffix rule, taking any suffix-named input column with them — and no
derived column is added; when no input column carries a reserved suffix
the columns are preserved exactly, and on a rectangular input every
surviving row has exactly one cell per surviving column. -/
theorem cleaned_frame_shape (d : Dataset) (kc : List String) (t : ℚ)
    (d' : Dataset) (rep : Report) (h : clean d kc t = .ok (d', rep)) :
    d'.cols = d.cols.filter (fun c => !(isAuxCol c)) ∧
    ((∀ c ∈ d.cols, isAuxCol c = false) → d'.cols = d.cols) ∧
    (d.WF → ∀ r2 ∈ d'.rows, r2.length = d'.cols.length) := by
  obtain ⟨hall, hd, _⟩ := clean_ok_iff.mp h
  subst hd
  refine ⟨rfl, ?_, ?_⟩
  · intro hfree
    show d.cols.filter (fun c => !(isAuxCol c)) = d.cols
    rw [List.filter_eq_self]
    intro c hc
    simp [hfree c hc]
  · intro hWF r2 hr2
    obtain ⟨p, hp, rfl⟩ := List.mem_map.mp hr2
    have hp2 := (removeOutliers_sublist _ _).subset hp
    rw [dropnaStep] at hp2
    have hp3 := (List.mem_filter.mp hp2).1
    obtain ⟨p0, hp0, hlen, _⟩ := mem_imputeStep_exists d.cols kc _ p hp3
    have hlen2 : p.1.length = d.cols.length := by
      rw [hlen]
      exact hWF p0.1 (mem_rows_of_mem_flagRows hp0)
    exact length_keepCells_of_eq d.cols p.1 hlen2

/-- C10 (amended): the cleaned rows are a subsequence of the input rows
after imputation and the final suffix-based column drop (rows are only
dropped, never added, duplicated or reordered); imputation changes exactly
the missing target-column cells, which receive their column's pre-clean
median, and the drop preserves the cells of every data (non-suffix-named)
column at its surviving position — only the cells of reserved-suffix-named
columns disappear from a retained row. -/
theorem cleaned_rows_from_input (d : Dataset) (kc : List String) (t : ℚ)
    (d' : Dataset) (rep : Report) (hWF : d.WF)
    (h : clean d kc t = .ok (d', rep)) :
    d'.rows.Sublist (d.rows.map (fun r => keepCells d.cols (imputeRowAll d kc r))) ∧
    (∀ r ∈ d.rows, ∀ j : Nat,
      ((∀ c ∈ kc, colIdx d.cols c ≠ some j) →
        cell (imputeRowAll d kc r) j = cell r j) ∧
      (∀ x : ℚ, cell r j = some x → cell (imputeRowAll d kc r) j = some x) ∧
      (∀ c ∈ kc, colIdx d.cols c = some j → cell r j = none →
        presentVals d c ≠ [] →
        cell (imputeRowAll d kc r) j = some (medianVal (presentVals d c)))) ∧
    (∀ c2 : String, isAuxCol c2 = false → ∀ i j : Nat,
      colIdx d.cols c2 = some i →
      colIdx (d.cols.filter (fun x => !(isAuxCol x))) c2 = some j →
      ∀ r : Row, cell (keepCells d.cols r) j = cell r i) := by
  refine ⟨?_, ?_, fun c2 hc2 i j hi hj r => cell_keepCells_some hc2 hi hj r⟩
  · rw [clean_ok_rows_eq hWF h]
    have h0 : ((((flagRows d kc t).map (fun p => (imputeRowAll d kc p.1, p.2))).filter
          (fun p => (keyIdxs d kc).all (fun i => (cell p.1 i).isSome))).filter
          (fun p => !(p.2.any id))).Sublist
        ((flagRows d kc t).map (fun p => (imputeRowAll d kc p.1, p.2))) :=
      (List.filter_sublist _).trans (List.filter_sublist _)
    have h1 := h0.map (fun p => keepCells d.cols p.1)
    have h3 : (((flagRows d kc t).map
          (fun p => (imputeRowAll d kc p.1, p.2))).map
            (fun p => keepCells d.cols p.1)) =
        d.rows.map (fun r => keepCells d.cols (imputeRowAll d kc r)) := by
      rw [List.map_map, flagRows, List.map_map]
      exact List.map_congr_left (fun r _ => rfl)
    rw [h3] at h1
    exact h1
  · intro r hr j
    refine ⟨?_, ?_, ?_⟩
    · intro hnone
      rw [cell_imputeRowAll]
      cases hcr : cell r j with
      | some x => rfl
      | none =>
        rw [lookup_fillsOf_none hnone]
        by_cases hlt : j < r.length <;> simp [hlt]
    · intro x hx
      rw [cell_imputeRowAll, hx]
    · intro c hc hcj hcnone hne
      rw [cell_imputeRowAll, hcnone]
      have hlt : j < r.length := by
        rw [hWF r hr]
        exact colIdx_lt hcj
      rw [if_pos hlt]
      have hm : median (presentVals d c) = some (medianVal (presentVals d c)) := by
        rw [median, if_neg]
        simpa using hne
      exact lookup_fillsOf_of hc hcj hm

/-- C7: a target column whose non-missing values are all identical (zero
variance) never fails the pipeline: all its outlier flags are `false`,
filtering on its flag drops no row, its reported outlier count is `0`, and
when every target column is present the pipeline completes. -/
theorem degenerate_column_no_outliers (d : Dataset) (kc : List String)
    (t : ℚ) (c : String) (i : Nat) (hc : c ∈ kc)
    (hi : colIdx d.cols c = some i)
    (hconst : ∀ x ∈ presentVals d c, ∀ y ∈ presentVals d c, x = y) :
    (∀ r : Row, flagOf d t c r = false) ∧
    (∀ rs : List Row, rs.filter (fun r => !(flagOf d t c r)) = rs) ∧
    (∀ d' rep, clean d kc t = .ok (d', rep) → (c, 0) ∈ rep.outliers) ∧
    ((∀ c2 ∈ kc, c2 ∈ d.cols) → ∃ pr, clean d kc t = .ok pr) := by
  have hv : listVar (presentVals d c) = 0 := listVar_eq_zero_of_const hconst
  have hflag : ∀ r : Row, flagOf d t c r = false := by
    intro r
    simp only [flagOf, hi]
    cases hcc : cell r i with
    | none => rfl
    | some x =>
      simp only [outlierFlag, hv]
      simp
  refine ⟨hflag, ?_, ?_, ?_⟩
  · intro rs
    rw [List.filter_eq_self]
    intro r _
    simp [hflag r]
  · intro d' rep hok
    obtain ⟨_, _, hrep⟩ := clean_ok_iff.mp hok
    subst hrep
    show (c, 0) ∈ (report d kc t).outliers
    have hcp : c ∈ presentKeyCols d kc := by
      rw [presentKeyCols]
      refine List.mem_filter.mpr ⟨hc, ?_⟩
      have : c ∈ d.cols := (colIdx_isSome_iff d.cols c).mp (by rw [hi]; rfl)
      simpa using this
    have hcount : d.rows.countP (fun r => flagOf d t c r) = 0 := by
      rw [List.countP_eq_zero]
      intro r _
      simp [hflag r]
    rw [report]
    show (c, 0) ∈ outlierCounts d kc t
    rw [outlierCounts]
    refine List.mem_map.mpr ⟨c, hcp, ?_⟩
    rw [hcount]
  · intro hall
    exact ⟨_, clean_ok_iff.mpr ⟨hall, rfl, rfl⟩⟩

/-- C5 (amended): the pipeline raises exactly when some target column is
absent from the dataset (pandas `dropna(subset=...)` raises a `KeyError`);
it never checks the dataset or the target list for emptiness, and completes
on both. -/
theorem clean_fails_iff_target_absent (d : Dataset) (kc : List String)
    (t : ℚ) : (∃ e, clean d kc t = .error e) ↔ ∃ c ∈ kc, c ∉ d.cols :=
  clean_error_iff

/-- C8 (amended): an absent target column is skipped by the flagging pass
(it gets no flag attribute) and by the imputation loop, but `clean` as a
whole raises at the `dropna(subset=key_cols)` step; no missing-columns
report is produced. -/
theorem absent_column_skipped_but_raises (d : Dataset) (kc : List String)
    (t : ℚ) (c : String) (hc : c ∈ kc) (habs : c ∉ d.cols) :
    (∃ e, clean d kc t = .error e) ∧
    c ∉ presentKeyCols d kc ∧
    (∀ rows, imputeCol d.cols c rows = rows) := by
  have hcol : colIdx d.cols c = none := (colIdx_eq_none_iff d.cols c).mpr habs
  refine ⟨clean_error_iff.mpr ⟨c, hc, habs⟩, ?_, ?_⟩
  · intro hmem
    have := (List.mem_filter.mp hmem).2
    simp only [decide_eq_true_eq] at this
    exact habs this
  · intro rows
    simp only [imputeCol, hcol]

/-- C3 (amended): for data-named target columns (no reserved
`'_zscore'`/`'_outlier'` suffix — such a target would have been deleted
from the cleaned output by the final column drop), re-running `clean` on a
cleaned output performs no imputation and its missing-value drop removes
no row; the second run is exactly a re-filter by the freshly recomputed
outlier flags, which (as the counterexample shows) can drop further
rows. -/
theorem reclean_only_refilters_outliers (d : Dataset) (kc : List String)
    (t : ℚ) (d' : Dataset) (rep : Report)
    (htc : ∀ c ∈ kc, isAuxCol c = false)
    (h : clean d kc t = .ok (d', rep)) :
    clean d' kc t = .ok (⟨d'.cols,
      ((flagRows d' kc t).filter (fun p => !(p.2.any id))).map (fun p => p.1)⟩,
      report d' kc t) := by
  have hcols := clean_ok_cols h
  have hallmem : ∀ c ∈ kc, c ∈ d.cols := (clean_ok_iff.mp h).1
  have hall : ∀ c ∈ kc, c ∈ d'.cols := by
    intro c hc
    rw [hcols]
    exact List.mem_filter.mpr ⟨hallmem c hc, by simp [htc c hc]⟩
  have hauxfree : ∀ c ∈ d'.cols, isAuxCol c = false := clean_ok_cols_auxfree h
  have hrowlen : ∀ r ∈ d'.rows, r.length ≤ d'.cols.length := clean_ok_row_length_le h
  have hsome : ∀ c ∈ kc, ∀ j, colIdx d'.cols c = some j →
      ∀ p ∈ flagRows d' kc t, (cell p.1 j).isSome = true := by
    intro c hc j hj p hp
    obtain ⟨i, hi⟩ := Option.isSome_iff_exists.mp
      ((colIdx_isSome_iff d.cols c).mpr (hallmem c hc))
    exact clean_ok_cell_isSome h hc (htc c hc) hi hj p.1 (mem_rows_of_mem_flagRows hp)
  have h1 : imputeStep d'.cols kc (flagRows d' kc t) = flagRows d' kc t :=
    imputeStep_id d'.cols kc _ hsome
  have h2 : dropnaStep (keyIdxs d' kc) (flagRows d' kc t) = flagRows d' kc t := by
    rw [dropnaStep, List.filter_eq_self]
    intro p hp
    rw [List.all_eq_true]
    intro i hi2
    obtain ⟨c, hc, hci⟩ := List.mem_filterMap.mp hi2
    exact hsome c hc i hci p hp
  have h3 : removeOutliers (presentKeyCols d' kc).length (flagRows d' kc t) =
      (flagRows d' kc t).filter (fun p => !(p.2.any id)) := by
    apply removeOutliers_eq
    intro p hp
    rw [flags_of_mem_flagRows hp]
    exact List.length_map _ _
  have hfilself : d'.cols.filter (fun c => !(isAuxCol c)) = d'.cols := by
    rw [List.filter_eq_self]
    intro c hc
    simp [hauxfree c hc]
  have hkeepid : ∀ p ∈ (flagRows d' kc t).filter (fun p => !(p.2.any id)),
      p.1 = keepCells d'.cols p.1 := by
    intro p hp
    have hp2 := (List.filter_sublist _).subset hp
    exact (keepCells_eq_self d'.cols p.1 hauxfree
      (hrowlen p.1 (mem_rows_of_mem_flagRows hp2))).symm
  refine clean_ok_iff.mpr ⟨hall, ?_, rfl⟩
  rw [h1, h2, h3, hfilself]
  exact congrArg (fun rs => (⟨d'.cols, rs⟩ : Dataset))
    (List.map_congr_left hkeepid)

/-! ## Concrete runs of the pipeline -/

set_option maxRecDepth 100000

/-- The spec §8 scenario input: `GHI = [10, 12, 11, 1000, NaN]`. -/
def dGHI : Dataset := ⟨["GHI"], [[some 10], [some 12], [some 11], [some 1000], [none]]⟩

/-- What the pipeline produces from `dGHI`: the missing value is imputed to
the median `11.5` and no row is dropped. -/
def dGHIclean : Dataset :=
  ⟨["GHI"], [[some 10], [some 12], [some 11], [some 1000], [some (23 / 2)]]⟩

/-- The report for `dGHI`: one missing `GHI` value (20 %), zero outliers. -/
def repGHI : Report := ⟨[("GHI", 1, 20)], [("GHI", 0)]⟩

/-- Ten zeros, a moderate value and an extreme value: the extreme value
masks the moderate one in the first z-score pass. -/
def dMasked : Dataset :=
  ⟨["GHI"], List.replicate 10 [some 0] ++ [[some 1], [some 1000]]⟩

/-- `dMasked` after one cleaning pass: only the row with `1000` is dropped
(`|z| ≈ 3.3 > 3`, while `1` has `|z| ≈ 0.3`). -/
def dOnce : Dataset := ⟨["GHI"], List.replicate 10 [some 0] ++ [[some 1]]⟩

/-- C6 (counterexample): on `GHI = [10, 12, 11, 1000, NaN]` with threshold
`3.0` the pipeline keeps 5 rows, not the 4 the spec scenario expects: with
four non-missing values the population z-score of `1000` is `√3 ≈ 1.73`,
below the threshold, so its row is never flagged or dropped. -/
theorem ghi_scenario_keeps_five_rows :
    (clean dGHI ["GHI"] 3).toOption.map (fun pr => pr.1.rows.length) = some 5 ∧
    (clean dGHI ["GHI"] 3).toOption.map (fun pr => pr.1.rows.length) ≠ some 4 := by
  constructor
  · with_unfolding_all decide
  · with_unfolding_all decide

/-- C6 (amended): on `GHI = [10, 12, 11, 1000, NaN]` with threshold `3.0`,
the missing value is imputed to the median `11.5` of `[10, 11, 12, 1000]`,
nothing is flagged (the z-score of `1000` is `√3 < 3`), no row is dropped,
and the result has 5 rows with no missing value; the report records one
missing value (20 %) and an outlier count of zero. -/
theorem ghi_scenario_result :
    clean dGHI ["GHI"] 3 = .ok (dGHIclean, repGHI) := by
  with_unfolding_all decide

/-- C3 (counterexample): `dOnce` is itself an output of `clean` (from
`dMasked`), yet cleaning it again with the same target columns and
threshold drops one more row: removing the extreme value `1000` shrinks
the standard deviation, so on the cleaned data the value `1` is newly
flagged (`|z| = √10 > 3`). -/
theorem clean_not_idempotent_counterexample :
    (clean dMasked ["GHI"] 3).toOption.map (fun pr => pr.1) = some dOnce ∧
    (clean dOnce ["GHI"] 3).toOption.map (fun pr => pr.1) ≠ some dOnce := by
  constructor
  · with_unfolding_all decide
  · with_unfolding_all decide

/-- C5 (counterexample): the pipeline has no emptiness check: it completes
(no `EmptyInputError`) on a dataset with no rows, and on an empty
target-column list. -/
theorem clean_accepts_empty_input :
    clean ⟨["GHI"], []⟩ ["GHI"] 3 = .ok (⟨["GHI"], []⟩, ⟨[], [("GHI", 0)]⟩) ∧
    clean ⟨["GHI"], [[some 1]]⟩ [] 3 = .ok (⟨["GHI"], [[some 1]]⟩, ⟨[], []⟩) := by
  constructor
  · with_unfolding_all decide
  · with_unfolding_all decide

/-- C8 (counterexample): with target columns `["GHI", "DNI"]` and `DNI`
absent from the dataset, the pipeline raises (the `dropna(subset=...)`
`KeyError`) instead of processing `GHI` and reporting `DNI` as missing. -/
theorem absent_target_raises_keyerror :
    clean ⟨["GHI"], [[some 1]]⟩ ["GHI", "DNI"] 3 = .error "KeyError" := by
  with_unfolding_all decide

/-- A column whose values are all identical, for the degenerate-column
scenario. -/
def dConst : Dataset := ⟨["GHI"], [[some 5], [some 5], [some 5]]⟩

/-- An input with a column whose name carries a reserved suffix next to an
ordinary data column. -/
def dAux : Dataset := ⟨["foo_zscore", "GHI"], [[some 7, some 1]]⟩

/-- C9 (counterexample): an input column named with a reserved suffix
(`foo_zscore`) is deleted by the final `df.drop` of every
`'_zscore'`/`'_outlier'`-suffixed column, so the cleaned dataset does not
contain exactly the original columns. -/
theorem aux_named_column_dropped :
    (clean dAux ["GHI"] 3).toOption.map (fun pr => pr.1.cols) = some ["GHI"] ∧
    (clean dAux ["GHI"] 3).toOption.map (fun pr => pr.1.cols) ≠ some dAux.cols := by
  constructor
  · with_unfolding_all decide
  · with_unfolding_all decide

/-- C10 (counterexample): at the same input the retained row loses the
`foo_zscore` cell (the column is clobbered by the flag pass and deleted by
the final drop), so the cleaned rows are not a subsequence of the
imputed input rows. -/
theorem aux_named_cells_clobbered :
    (clean dAux ["GHI"] 3).toOption.map (fun pr => pr.1.rows) = some [[some 1]] ∧
    ¬ (([[some 1]] : List Row).Sublist
        (dAux.rows.map (fun r => imputeRowAll dAux ["GHI"] r))) := by
  constructor
  · with_unfolding_all decide
  · with_unfolding_all decide

/-! ## Witnesses -/

/-- Witness for `cleaned_no_missing` at the concrete scenario dataset. -/
theorem cleaned_no_missing_witness :
    clean dGHI ["GHI"] 3 = .ok (dGHIclean, repGHI) ∧
    ∀ v ∈ colCells dGHIclean "GHI", v.isSome = true :=
  ⟨by with_unfolding_all decide,
    cleaned_no_missing dGHI ["GHI"] 3 "GHI" dGHIclean repGHI
      (by with_unfolding_all decide) (by decide) (by decide)⟩

/-- Witness for `cleaned_zscore_bound` at the concrete scenario dataset. -/
theorem cleaned_zscore_bound_witness :
    Dataset.WF dGHI ∧
    (∀ v ∈ colCells dGHIclean "GHI", ∀ x : ℚ, v = some x →
      (x - listMean (presentVals dGHI "GHI")) ^ 2 ≤
        3 ^ 2 * listVar (presentVals dGHI "GHI")) :=
  ⟨by decide, cleaned_zscore_bound dGHI ["GHI"] "GHI" dGHIclean repGHI
    (by decide) (by with_unfolding_all decide) (by decide)⟩

/-- Witness for `clean_follows_spec_step_order` at the scenario dataset. -/
theorem clean_follows_spec_step_order_witness :
    Dataset.WF dGHI ∧ clean dGHI ["GHI"] 3 = cleanSpecOrder dGHI ["GHI"] 3 :=
  ⟨by decide, clean_follows_spec_step_order dGHI ["GHI"] 3 (by decide)⟩

/-- Witness for `degenerate_column_no_outliers` on a constant column. -/
theorem degenerate_column_no_outliers_witness :
    (∀ x ∈ presentVals dConst "GHI", ∀ y ∈ presentVals dConst "GHI", x = y) ∧
    ((∀ r : Row, flagOf dConst 3 "GHI" r = false) ∧
      (∀ rs : List Row, rs.filter (fun r => !(flagOf dConst 3 "GHI" r)) = rs) ∧
      (∀ d' rep, clean dConst ["GHI"] 3 = .ok (d', rep) →
        ("GHI", 0) ∈ rep.outliers) ∧
      ((∀ c2 ∈ ["GHI"], c2 ∈ dConst.cols) →
        ∃ pr, clean dConst ["GHI"] 3 = .ok pr)) :=
  ⟨by with_unfolding_all decide,
    degenerate_column_no_outliers dConst ["GHI"] 3 "GHI" 0 (by decide) (by decide)
      (by with_unfolding_all decide)⟩

/-- Witness for `absent_column_skipped_but_raises` with `DNI` absent. -/
theorem absent_column_skipped_but_raises_witness :
    ("DNI" ∈ ["GHI", "DNI"]) ∧ ("DNI" ∉ dGHI.cols) ∧
    ((∃ e, clean dGHI ["GHI", "DNI"] 3 = .error e) ∧
      "DNI" ∉ presentKeyCols dGHI ["GHI", "DNI"] ∧
      (∀ rows, imputeCol dGHI.cols "DNI" rows = rows)) :=
  ⟨by decide, by decide,
    absent_column_skipped_but_raises dGHI ["GHI", "DNI"] 3 "DNI"
      (by decide) (by decide)⟩

/-- Witness for `cleaned_frame_shape` at the scenario dataset. -/
theorem cleaned_frame_shape_witness :
    dGHIclean.cols = dGHI.cols.filter (fun c => !(isAuxCol c)) ∧
    ((∀ c ∈ dGHI.cols, isAuxCol c = false) → dGHIclean.cols = dGHI.cols) ∧
    (dGHI.WF → ∀ r2 ∈ dGHIclean.rows, r2.length = dGHIclean.cols.length) :=
  cleaned_frame_shape dGHI ["GHI"] 3 dGHIclean repGHI
    (by with_unfolding_all decide)

/-- Witness for `cleaned_rows_from_input` at the scenario dataset. -/
theorem cleaned_rows_from_input_witness :
    dGHIclean.rows.Sublist
      (dGHI.rows.map (fun r => keepCells dGHI.cols (imputeRowAll dGHI ["GHI"] r))) ∧
    (∀ r ∈ dGHI.rows, ∀ j : Nat,
      ((∀ c ∈ ["GHI"], colIdx dGHI.cols c ≠ some j) →
        cell (imputeRowAll dGHI ["GHI"] r) j = cell r j) ∧
      (∀ x : ℚ, cell r j = some x →
        cell (imputeRowAll dGHI ["GHI"] r) j = some x) ∧
      (∀ c ∈ ["GHI"], colIdx dGHI.cols c = some j → cell r j = none →
        presentVals dGHI c ≠ [] →
        cell (imputeRowAll dGHI ["GHI"] r) j =
          some (medianVal (presentVals dGHI c)))) ∧
    (∀ c2 : String, isAuxCol c2 = false → ∀ i j : Nat,
      colIdx dGHI.cols c2 = some i →
      colIdx (dGHI.cols.filter (fun x => !(isAuxCol x))) c2 = some j →
      ∀ r : Row, cell (keepCells dGHI.cols r) j = cell r i) :=
  cleaned_rows_from_input dGHI ["GHI"] 3 dGHIclean repGHI (by decide)
    (by with_unfolding_all decide)

/-- Witness for `reclean_only_refilters_outliers` at the scenario dataset. -/
theorem reclean_only_refilters_outliers_witness :
    clean dGHIclean ["GHI"] 3 = .ok (⟨dGHIclean.cols,
      ((flagRows dGHIclean ["GHI"] 3).filter (fun p => !(p.2.any id))).map
        (fun p => p.1)⟩, report dGHIclean ["GHI"] 3) :=
  reclean_only_refilters_outliers dGHI ["GHI"] 3 dGHIclean repGHI
    (by with_unfolding_all decide) (by with_unfolding_all decide)

end Solar
